import Mathlib

/-!
Shallow embedding of the bit-vector SLS valuation engine
(src/ast/sls/sls_valuation.{h,cpp}).

Representation: a `bvect` of `nw` machine words (`digit_t`, 32 bits each) is
modelled as a `Nat` holding the concatenation of its words, word 0 least
significant, so a vector of `nw` words is a `Nat` below `2 ^ (32 * nw)`.
Word `i` of the vector is `word x i = (x >>> (32 * i)) % 2 ^ 32`.
Under this representation:
  - the per-word loops `dst[i] = a[i] OP b[i]` for `OP` among `&`, `|`, `^`
    over all the `nw` words are exactly the `Nat` operations `&&&`, `|||`,
    `^^^` on values below `2 ^ (32 * nw)`;
  - `~a[i]` (per-word complement) over all words is `x ^^^ (2 ^ (32*nw) - 1)`;
  - the opaque multi-precision backend (`mpn_manager`) `compare`/`add`/`mul`
    over `nw`-word sequences is `Nat` comparison / addition / multiplication
    of the represented values, per its documented standard semantics.
Loops whose behaviour depends on individual word or bit indices
(`get_at_most`, `tighten_range`, `sub1`, `to_nat`, the samplers, ...) are
translated index by index as structural recursions or folds.
-/

namespace bv

/-- Bits per machine word (`digit_t` is a 32-bit unsigned integer). -/
def digitBits : Nat := 32

/-- All-ones machine word, the value of `~(digit_t)0`. -/
def dMask : Nat := 2 ^ 32 - 1

/-- Number of words for bit-width `bw`: `(bw + 8*sizeof(digit_t) - 1) / (8*sizeof(digit_t))`. -/
def nwOf (bw : Nat) : Nat := (bw + 31) / 32

/-- Valid-bit mask of the most significant word:
`mask = (1 << (bw % 32)) - 1; if (mask == 0) mask = ~(digit_t)0;`. -/
def wmaskOf (bw : Nat) : Nat := if bw % 32 = 0 then 2 ^ 32 - 1 else 2 ^ (bw % 32) - 1

/-- Total number of represented bit positions, `32 * nw`. -/
def twOf (bw : Nat) : Nat := 32 * nwOf bw

/-- `~mask` within one word: the overflow-bit positions of the top word. -/
def himaskOf (bw : Nat) : Nat := dMask ^^^ wmaskOf bw

/-- Word `i` of the multi-word value `x`. -/
def word (x i : Nat) : Nat := (x >>> (32 * i)) % 2 ^ 32

/-- Reassemble a value from its low `n` words. -/
def ofWords (f : Nat → Nat) : Nat → Nat
  | 0 => 0
  | n + 1 => ofWords f n + (f n <<< (32 * n))

/-- z3's `log2` on a nonzero machine word: index of the most significant set
bit (the fold keeps the highest index whose bit is set). -/
def log2w (w : Nat) : Nat := (List.range 32).foldl (fun acc i => if w.testBit i then i else acc) 0

/-- `bvect::set(i, b)`: write bit `i` of `x`. -/
def setBitTo (x i : Nat) (b : Bool) : Nat :=
  if b then x ||| (1 <<< i) else x ^^^ (if x.testBit i then 1 <<< i else 0)

/--
The state of one `sls_valuation`:
`bits` is the committed value `m_bits`, `eval` the speculative value,
`fixed` the pinned-bit mask, `lo`/`hi` the wrap-around interval `m_lo`/`m_hi`,
`spfx` the signed prefix `m_signed_prefix`.  `bw` is the bit-width; `nw` and
the overflow `mask` are derived from it (`nwOf`, `wmaskOf`).
-/
structure Valuation where
  bw : Nat
  bits : Nat
  lo : Nat
  hi : Nat
  fixed : Nat
  eval : Nat
  spfx : Nat
deriving Repr, DecidableEq

/-- Per-word complement `~x` over the `nw` words of this valuation. -/
def cnot (v : Valuation) (x : Nat) : Nat := x ^^^ (2 ^ twOf v.bw - 1)

/-- Copy of the low `nw` words (`bvect::copy_to` / the two-argument `set`). -/
def copyN (bw x : Nat) : Nat := x % 2 ^ twOf bw

/-- `clear_overflow_bits`: `bits[nw-1] &= mask`, keeping the lower words. -/
def clear_overflow_bits (bw x : Nat) : Nat :=
  ofWords (fun i => if i + 1 = nwOf bw then word x i &&& wmaskOf bw else word x i) (nwOf bw)

/-- The constructor `sls_valuation(bw)`: all five vectors zeroed, then
`fixed[nw - 1] = ~mask`. -/
def fresh (bw : Nat) : Valuation :=
  { bw := bw, bits := 0, lo := 0, hi := 0, eval := 0,
    fixed := himaskOf bw <<< (32 * (nwOf bw - 1)), spfx := 0 }

/-- `has_overflow(bits)`: `0 != (bits[nw - 1] & ~mask)`. -/
def has_overflow (v : Valuation) (x : Nat) : Bool :=
  decide (word x (nwOf v.bw - 1) &&& himaskOf v.bw ≠ 0)

/-- `in_range(bits)`: three-way comparison of `m_lo` and `m_hi`. -/
def in_range (v : Valuation) (x : Nat) : Bool :=
  if v.lo = v.hi then true
  else if v.lo < v.hi then decide (v.lo ≤ x ∧ x < v.hi)
  else decide (v.lo ≤ x ∨ x < v.hi)

/-- `has_range()`: `m_lo != m_hi`. -/
def has_range (v : Valuation) : Bool := decide (v.lo ≠ v.hi)

/-- `well_formed()`: no overflow in `m_bits`, and `m_bits` in range when the
range is constrained. -/
def well_formed (v : Valuation) : Bool :=
  !has_overflow v v.bits && (!has_range v || in_range v v.bits)

/-- `can_set(new_bits)`: `new_bits` agrees with `m_bits` on fixed bits and is
in range. -/
def can_set (v : Valuation) (x : Nat) : Bool :=
  decide ((x ^^^ v.bits) &&& v.fixed = 0) && in_range v x

/-- `commit_eval()`: fail if `eval` disagrees with `m_bits` on a fixed bit or
is out of range, otherwise copy `eval` into `m_bits`. -/
def commit_eval (v : Valuation) : Bool × Valuation :=
  if v.fixed &&& (v.bits ^^^ v.eval) ≠ 0 then (false, v)
  else if in_range v v.eval then (true, { v with bits := v.eval })
  else (false, v)

/-- `sub1(out)`: scan bits `0 .. bw-1`; flip zeros to ones until the first set
bit, which is cleared (decrement modulo `2 ^ bw` on the low `bw` bits). -/
def sub1_go (x : Nat) : List Nat → Nat
  | [] => x
  | i :: rest => if x.testBit i then setBitTo x i false else sub1_go (setBitTo x i true) rest

/-- `sub1` over bit-width `bw`. -/
def sub1 (bw x : Nat) : Nat := sub1_go x (List.range bw)

/-- `round_up(dst)` (the range-clamping variant used by `get_at_least`). -/
def round_up (v : Valuation) (dst : Nat) : Bool × Nat :=
  if v.lo < v.hi then
    if v.hi ≤ dst then (false, dst)
    else if v.lo > dst then (true, copyN v.bw v.lo)
    else (true, dst)
  else if v.hi ≤ dst ∧ v.lo > dst then (true, copyN v.bw v.lo)
  else (true, dst)

/-- `round_down(dst)` (the range-clamping variant used by `get_at_most`). -/
def round_down (v : Valuation) (dst : Nat) : Bool × Nat :=
  if v.lo < v.hi then
    if v.lo > dst then (false, dst)
    else if v.hi ≤ dst then (true, sub1 v.bw (copyN v.bw v.hi))
    else (true, dst)
  else if v.hi ≤ dst ∧ v.lo > dst then (true, sub1 v.bw (copyN v.bw v.hi))
  else (true, dst)

/-- The `for (unsigned i = nw; i-- > 0; ) { if (g i) { ...; break; } }`
pattern: index of the most significant word satisfying `g`, if any. -/
def findHiWord (g : Nat → Bool) : Nat → Option Nat
  | 0 => none
  | n + 1 => if g n then some n else findHiWord g n

/-- `get_at_most(src, dst)`: greatest value at or below `src` per the word
loops of the source, then `round_down`. -/
def get_at_most (v : Valuation) (src : Nat) : Bool × Nat :=
  let d0 := src &&& (cnot v v.fixed ||| v.bits)
  let d1 :=
    match findHiWord (fun i => decide ((word d0 i ^^^ dMask) &&& word src i ≠ 0)) (nwOf v.bw) with
    | none => d0
    | some i =>
      let idx := log2w ((word d0 i ^^^ dMask) &&& word src i)
      let m := 2 ^ idx - 1
      ofWords (fun j =>
        if j < i then (word v.fixed j ^^^ dMask) ||| word v.bits j
        else if j = i then ((word v.fixed i ^^^ dMask) &&& m) ||| word d0 i
        else word d0 j) (nwOf v.bw)
  round_down v d1

/-- `get_at_least(src, dst)`: least value at or above `src` per the word loops
of the source, then `round_up`. -/
def get_at_least (v : Valuation) (src : Nat) : Bool × Nat :=
  let d0 := (cnot v v.fixed &&& src) ||| (v.fixed &&& v.bits)
  let d1 :=
    match findHiWord (fun i => decide (word d0 i &&& (word src i ^^^ dMask) ≠ 0)) (nwOf v.bw) with
    | none => d0
    | some i =>
      let idx := log2w (word d0 i &&& (word src i ^^^ dMask))
      let m := 2 ^ idx
      ofWords (fun j =>
        if j < i then word d0 j &&& word v.fixed j
        else if j = i then word d0 i &&& (word v.fixed i ||| m)
        else word d0 j) (nwOf v.bw)
  round_up v d1

/-- `set_value(bits, n)`: write bits `0 .. bw-1` from `n`, then clear the
overflow bits. -/
def set_value (bw x r : Nat) : Nat :=
  clear_overflow_bits bw ((List.range bw).foldl (fun d i => setBitTo d i (r.testBit i)) x)

/-- Phase 1 of `tighten_range` when `m_bits` disagrees with `m_lo` on a fixed
bit: build the replacement for `m_bits` from `m_lo`, `fixed` and `m_bits`. -/
def tighten_incompatible (v : Valuation) : Nat :=
  let maxDiff := (List.range v.bw).foldl
    (fun acc i => if v.fixed.testBit i ∧ (v.bits.testBit i ≠ v.lo.testBit i) then i else acc) v.bw
  let tmp1 := (List.range (maxDiff + 1)).foldl
    (fun d i => setBitTo d i (v.fixed.testBit i && v.bits.testBit i)) (copyN v.bw v.lo)
  let p := (List.range (v.bw - (maxDiff + 1))).foldl
    (fun (st : Nat × Bool) j =>
      let i := maxDiff + 1 + j
      if st.2 ∨ v.lo.testBit i ∨ v.fixed.testBit i then
        (setBitTo st.1 i (v.lo.testBit i && v.fixed.testBit i), st.2)
      else (setBitTo st.1 i true, true))
    (tmp1, false)
  p.1

/-- `tighten_range()`. -/
def tighten_range (v : Valuation) : Valuation :=
  if v.lo = v.hi then v
  else
    let v1 :=
      if in_range v v.bits then v
      else if v.fixed &&& (v.bits ^^^ v.lo) = 0 then { v with bits := copyN v.bw v.lo }
      else { v with bits := copyN v.bw (tighten_incompatible v) }
    match findHiWord (fun i => v1.fixed.testBit i && (v1.bits.testBit i != v1.lo.testBit i)) v1.bw with
    | none => v1
    | some i =>
      if v1.bits.testBit i then
        let lo2 := (List.range i).foldl
          (fun d j => setBitTo d j (v1.fixed.testBit j && v1.bits.testBit j))
          (setBitTo v1.lo i true)
        { v1 with lo := lo2 }
      else
        let lo2 := (List.range v1.bw).foldl
          (fun d j => setBitTo d j (v1.fixed.testBit j && v1.bits.testBit j)) v1.lo
        { v1 with lo := lo2 }

/-- `add_range(l, h)` with the arguments already given as naturals (the
rational inputs are reduced `mod 2^bw` on entry). -/
def add_range (v : Valuation) (l0 h0 : Nat) : Valuation :=
  let l := l0 % 2 ^ v.bw
  let h := h0 % 2 ^ v.bw
  if h = l then v
  else
    let v1 :=
      if v.lo = v.hi then
        { v with lo := set_value v.bw v.lo l, hi := set_value v.bw v.hi h }
      else if v.lo < v.hi then
        let v2 := if v.lo < l ∧ l < v.hi then { v with lo := set_value v.bw v.lo l } else v
        -- source line 515: `if (old_hi < h && h < old_hi)`, kept verbatim
        if v.hi < h ∧ h < v.hi then { v2 with hi := set_value v.bw v2.hi h } else v2
      else
        let oldLo2 := if v.lo < l ∨ l < v.hi then l else v.lo
        let v2 := if v.lo < l ∨ l < v.hi then { v with lo := set_value v.bw v.lo l } else v
        if oldLo2 < h ∧ h < v.hi then { v2 with hi := set_value v.bw v2.hi h }
        else if v.hi < oldLo2 ∧ (h < v.hi ∨ oldLo2 < h) then { v2 with hi := set_value v.bw v2.hi h }
        else v2
    tighten_range v1

/-- `to_nat(max_n)` inner scan: `for (j = i; j < bw; ++j) if (d.get(j)) ...`. -/
def anyBitFrom (d i bw : Nat) : Bool := (List.range (bw - i)).any (fun k => d.testBit (i + k))

/-- The `to_nat` loop; `p` and `value` are 32-bit unsigned accumulators. -/
def to_nat_go (d bw maxn : Nat) : Nat → Nat → Nat → Nat → Nat
  | 0, _, _, value => value
  | rem + 1, i, p, value =>
    if p ≥ maxn then (if anyBitFrom d i bw then maxn else value)
    else to_nat_go d bw maxn rem (i + 1) ((p <<< 1) % 2 ^ 32)
      (if d.testBit i then (value + p) % 2 ^ 32 else value)

/-- `to_nat(max_n)`. -/
def to_nat (v : Valuation) (maxn : Nat) : Nat := to_nat_go v.bits v.bw maxn v.bw 0 1 0

/-- `set_add(out, a, b)`: backend addition into `nw + 1` words; the overflow
flag reads the extra word and the top-word overflow bits before masking. -/
def set_add (v : Valuation) (a b : Nat) : Bool × Nat :=
  let s := a + b
  (decide (word s (nwOf v.bw) ≠ 0) || has_overflow v s, clear_overflow_bits v.bw s)

/-- `set_mul(out, a, b, check_overflow)`: backend multiplication into `2 * nw`
words; the flag reads the top-word overflow bits and the upper `nw` words. -/
def set_mul (v : Valuation) (a b : Nat) (chk : Bool) : Bool × Nat :=
  let p := a * b
  let ovfl := chk && (has_overflow v p ||
    (List.range (nwOf v.bw)).any (fun j => decide (word p (nwOf v.bw + j) ≠ 0)))
  (ovfl, clear_overflow_bits v.bw p)

/-- `is_zero(a)`: words `0 .. nw-2` and the masked top word are zero. -/
def is_zero (v : Valuation) (a : Nat) : Bool :=
  (List.range (nwOf v.bw - 1)).all (fun i => decide (word a i = 0)) &&
  decide (word a (nwOf v.bw - 1) &&& wmaskOf v.bw = 0)

/-- `is_ones(a)`: words `0 .. nw-2` are all-ones and the masked top word is
all-ones under the mask. -/
def is_ones (v : Valuation) (a : Nat) : Bool :=
  (List.range (nwOf v.bw - 1)).all (fun i => decide (word a i ^^^ dMask = 0)) &&
  decide (wmaskOf v.bw &&& (word a (nwOf v.bw - 1) ^^^ dMask) = 0)

/-- `void set(bvect const& src)`: copy `nw` words into `eval` and clear the
overflow bits. -/
def set_eval (v : Valuation) (src : Nat) : Valuation :=
  { v with eval := clear_overflow_bits v.bw src }

/-- `try_set(src)`: `can_set` guard, then `set`. -/
def try_set (v : Valuation) (src : Nat) : Bool × Valuation :=
  if can_set v src then (true, set_eval v src) else (false, v)

/-- `try_set_bit(i, b)` (header, lines 126-135); note both range checks read
`m_bits`, not `eval`. -/
def try_set_bit (v : Valuation) (i : Nat) (b : Bool) : Bool × Valuation :=
  if v.fixed.testBit i ∧ v.bits.testBit i ≠ b then (false, v)
  else
    let v1 := { v with eval := setBitTo v.eval i b }
    if in_range v1 v1.bits then (true, v1)
    else (false, { v1 with eval := setBitTo v1.eval i (!b) })

/-- `try_set_range(dst, lo, hi, b)`: reject if some fixed bit in `[lo, hi)`
disagrees with `b`, otherwise write the whole range into `dst`. -/
def try_set_range (v : Valuation) (dst l h : Nat) (b : Bool) : Bool × Nat :=
  if (List.range (h - l)).any (fun j => v.fixed.testBit (l + j) && (v.bits.testBit (l + j) != b)) then
    (false, dst)
  else (true, (List.range (h - l)).foldl (fun d j => setBitTo d (l + j) b) dst)

/-- Indices `bw-1, bw-2, ..., 0`. -/
def descIdx (bw : Nat) : List Nat := (List.range bw).reverse

/-- Generic `while (cond dst) { if (!fixed.get(i) && dst.get(i)) clear bit i }`
loop over the given descending index list. -/
def clear_while (fixed : Nat) (cond : Nat → Bool) : Nat → List Nat → Nat
  | d, [] => d
  | d, i :: rest =>
    if cond d then
      if !fixed.testBit i && d.testBit i then clear_while fixed cond (setBitTo d i false) rest
      else clear_while fixed cond d rest
    else d

/-- Generic `while (cond dst) { if (!fixed.get(i) && !dst.get(i)) set bit i }`
loop over the given ascending index list. -/
def set_while (fixed : Nat) (cond : Nat → Bool) : Nat → List Nat → Nat
  | d, [] => d
  | d, i :: rest =>
    if cond d then
      if !fixed.testBit i && !d.testBit i then set_while fixed cond (setBitTo d i true) rest
      else set_while fixed cond d rest
    else d

/-- The signed-prefix index list: the loop `for (i = bw; i-- >= bw - prefix;)`
runs its body for `i = bw-1` down to `bw-prefix-1` (one index below the
prefix, as written in the source); for `prefix >= bw` the source indexes out
of bounds, so the list is clamped to the valid indices. -/
def spfxIdx (bw sp : Nat) : List Nat := (List.range (min (sp + 1) bw)).map (fun j => bw - 1 - j)

/-- The inner loop of `repair_sign_bits`: a disagreeing fixed bit wins, all
non-fixed prefix bits are set to its value (`!sign`). -/
def rsb_inner (v : Valuation) (sign : Bool) (dst : Nat) : Nat :=
  (spfxIdx v.bw v.spfx).foldl (fun d i => if !v.fixed.testBit i then setBitTo d i (!sign) else d) dst

/-- The outer loop of `repair_sign_bits`. -/
def rsb_go (v : Valuation) (sign : Bool) : Nat → List Nat → Nat
  | d, [] => d
  | d, i :: rest =>
    if d.testBit i ≠ sign then
      if v.fixed.testBit i then rsb_inner v sign d
      else rsb_go v sign (setBitTo d i sign) rest
    else rsb_go v sign d rest

/-- `repair_sign_bits(dst)`. -/
def repair_sign_bits (v : Valuation) (dst : Nat) : Nat :=
  if v.spfx = 0 then dst
  else rsb_go v (dst.testBit (v.bw - 1)) dst (spfxIdx v.bw v.spfx)

/-- `round_down(dst, is_feasible)`: clear non-fixed set bits from the top
until feasible, then re-enforce the signed prefix. -/
def round_down_pred (v : Valuation) (p : Nat → Bool) (d : Nat) : Nat :=
  repair_sign_bits v (clear_while v.fixed (fun x => !p x) d (descIdx v.bw))

/-- `round_up(dst, is_feasible)`: set non-fixed clear bits from the bottom
until feasible, then re-enforce the signed prefix. -/
def round_up_pred (v : Valuation) (p : Nat → Bool) (d : Nat) : Nat :=
  repair_sign_bits v (set_while v.fixed (fun x => !p x) d (List.range v.bw))

/-- `set_repair(try_down, dst)`; returns the success flag, the (possibly)
updated valuation and the final contents of the caller's `dst` buffer.
The `try_down` argument is unused in the source body. -/
def set_repair (v : Valuation) (_try_down : Bool) (dst0 : Nat) : Bool × Valuation × Nat :=
  let d1 := (cnot v v.fixed &&& dst0) ||| (v.fixed &&& v.bits)
  let d2 := repair_sign_bits v d1
  if in_range v d2 then (true, { v with eval := copyN v.bw d2 }, d2)
  else
    let d3 :=
      if v.lo < v.hi then
        let da := clear_while v.fixed (fun x => decide (v.hi ≤ x) && !in_range v x) d2 (descIdx v.bw)
        set_while v.fixed (fun x => decide (x < v.lo) && !in_range v x) da (List.range v.bw)
      else
        let da := set_while v.fixed (fun x => !in_range v x) d2 (List.range v.bw)
        clear_while v.fixed (fun x => !in_range v x) da (descIdx v.bw)
    let d4 := repair_sign_bits v d3
    if in_range v d4 then (true, { v with eval := copyN v.bw d4 }, d4)
    else (false, v, d4)

/-- `random_bits(r)`: four draws, each shifted into its byte lane of a 32-bit
word (`r ^= rand() << (8*i)` in `digit_t` arithmetic). -/
def random_bits (rng : Nat → Nat) (k : Nat) : Nat × Nat :=
  ((List.range 4).foldl (fun r i => r ^^^ ((rng (k + i) <<< (8 * i)) % 2 ^ 32)) 0, k + 4)

/-- `set_random_above(dst, r)`: or random bits into every non-fixed position,
word by word, then re-enforce the signed prefix. -/
def set_random_above (v : Valuation) (dst : Nat) (rng : Nat → Nat) (k : Nat) : Nat × Nat :=
  let st := (List.range (nwOf v.bw)).foldl
    (fun (st : Nat × Nat) i =>
      let rb := random_bits rng st.2
      (st.1 ||| ((rb.1 &&& (word v.fixed i ^^^ dMask)) <<< (32 * i)), rb.2))
    (dst, k)
  (repair_sign_bits v st.1, st.2)

/-- `set_random_below(dst, r)`: reservoir-sample a non-fixed set bit position
(`(r() % ++n) == 0`), clear it, randomize the non-fixed bits below it. -/
def set_random_below (v : Valuation) (dst : Nat) (rng : Nat → Nat) (k : Nat) : Nat × Nat :=
  if is_zero v dst then (dst, k)
  else
    let sel := (List.range v.bw).foldl
      (fun (st : Nat × Option Nat × Nat) i =>
        if dst.testBit i && !v.fixed.testBit i then
          let q := rng st.2.2
          (st.1 + 1, if q % (st.1 + 1) = 0 then some i else st.2.1, st.2.2 + 1)
        else st)
      (0, none, k)
    match sel.2.1 with
    | none => (dst, sel.2.2)
    | some idx =>
      let st := (List.range idx).foldl
        (fun (st : Nat × Nat) i =>
          if !v.fixed.testBit i then (setBitTo st.1 i (rng st.2 % 2 = 0), st.2 + 1) else st)
        (setBitTo dst idx false, sel.2.2)
      (repair_sign_bits v st.1, st.2)

/-- Package a `try_set` result together with the scratch buffer and the
random-stream position. -/
def try_set_p (v : Valuation) (tmp k : Nat) : Bool × Valuation × Nat × Nat :=
  ((try_set v tmp).1, (try_set v tmp).2, tmp, k)

/-- `set_random_at_most(src, tmp, r)`. -/
def set_random_at_most (v : Valuation) (src : Nat) (rng : Nat → Nat) (k : Nat) :
    Bool × Valuation × Nat × Nat :=
  let g := get_at_most v src
  if !g.1 then (false, v, g.2, k)
  else if is_zero v g.2 then try_set_p v g.2 k
  else if rng k % 2 = 0 then try_set_p v g.2 (k + 1)
  else
    let sb := set_random_below v g.2 rng (k + 1)
    if v.lo = v.hi ∨ is_zero v v.lo ∨ v.lo ≤ sb.1 then try_set_p v sb.1 sb.2
    else
      let g2 := get_at_most v src
      if g2.1 then try_set_p v g2.2 sb.2 else (false, v, g2.2, sb.2)

/-- `set_random_at_least(src, tmp, r)`. -/
def set_random_at_least (v : Valuation) (src : Nat) (rng : Nat → Nat) (k : Nat) :
    Bool × Valuation × Nat × Nat :=
  let g := get_at_least v src
  if !g.1 then (false, v, g.2, k)
  else if is_ones v g.2 then try_set_p v g.2 k
  else if rng k % 2 = 0 then try_set_p v g.2 (k + 1)
  else
    let sa := set_random_above v g.2 rng (k + 1)
    if v.lo = v.hi ∨ is_zero v v.hi ∨ v.hi > sa.1 then try_set_p v sa.1 sa.2
    else
      let g2 := get_at_least v src
      if g2.1 then try_set_p v g2.2 sa.2 else (false, v, g2.2, sa.2)

/-- `set_random_in_range(lo, hi, tmp, r)`. -/
def set_random_in_range (v : Valuation) (slo shi : Nat) (rng : Nat → Nat) (k : Nat) :
    Bool × Valuation × Nat × Nat :=
  if rng k % 2 = 0 then
    let g := get_at_least v slo
    if !g.1 then (false, v, g.2, k + 1)
    else if shi < g.2 then (false, v, g.2, k + 1)
    else if is_ones v g.2 then try_set_p v g.2 (k + 1)
    else if rng (k + 1) % 2 = 0 then try_set_p v g.2 (k + 2)
    else
      let sa := set_random_above v g.2 rng (k + 2)
      let t := round_down_pred v (fun x => decide (shi ≥ x) && in_range v x) sa.1
      if in_range v t && decide (slo ≤ t) && decide (shi ≥ t) then try_set_p v t sa.2
      else
        let g2 := get_at_least v slo
        if g2.1 && decide (shi ≥ g2.2) then try_set_p v g2.2 sa.2 else (false, v, g2.2, sa.2)
  else
    let g := get_at_most v shi
    if !g.1 then (false, v, g.2, k + 1)
    else if slo > g.2 then (false, v, g.2, k + 1)
    else if is_zero v g.2 then try_set_p v g.2 (k + 1)
    else if rng (k + 1) % 2 = 0 then try_set_p v g.2 (k + 2)
    else
      let sb := set_random_below v g.2 rng (k + 2)
      let t := round_up_pred v (fun x => decide (slo ≤ x) && in_range v x) sb.1
      if in_range v t && decide (slo ≤ t) && decide (shi ≥ t) then try_set_p v t sb.2
      else
        let g2 := get_at_most v shi
        if g2.1 && decide (slo ≤ g2.2) then try_set_p v g2.2 sb.2 else (false, v, g2.2, sb.2)

/-! Bridging lemmas between the word-wise operations and bit-level facts. -/

theorem land_xor_eq_zero_iff (f a b : Nat) :
    f &&& (a ^^^ b) = 0 ↔ ∀ i, f.testBit i = true → a.testBit i = b.testBit i := by
  constructor
  · intro h i hf
    have h0 : (f &&& (a ^^^ b)).testBit i = false := by rw [h]; exact Nat.zero_testBit i
    rw [Nat.testBit_and, Nat.testBit_xor, hf, Bool.true_and] at h0
    cases ha : a.testBit i <;> cases hb : b.testBit i <;> simp_all
  · intro h
    apply Nat.eq_of_testBit_eq
    intro i
    rw [Nat.testBit_and, Nat.testBit_xor, Nat.zero_testBit]
    by_cases hf : f.testBit i = true
    · rw [hf, h i hf]; simp
    · simp only [Bool.not_eq_true] at hf; rw [hf]; simp

/-! Claim theorems. -/

/-- Claim C1: `commit_eval()` returns true iff `eval` agrees with the
committed value `bits` on every fixed bit position and `in_range(eval)`
holds; on success `eval` is copied into `bits` (everything else unchanged),
and on failure the state is exactly as before the call. -/
theorem commit_eval_spec (v : Valuation) :
    ((commit_eval v).1 = true ↔
      ((∀ i, v.fixed.testBit i = true → v.eval.testBit i = v.bits.testBit i) ∧
        in_range v v.eval = true)) ∧
    ((commit_eval v).1 = true → (commit_eval v).2 = { v with bits := v.eval }) ∧
    ((commit_eval v).1 = false → (commit_eval v).2 = v) := by
  have hagree : v.fixed &&& (v.bits ^^^ v.eval) = 0 ↔
      ∀ i, v.fixed.testBit i = true → v.eval.testBit i = v.bits.testBit i := by
    rw [land_xor_eq_zero_iff]
    constructor <;> intro h i hf <;> exact (h i hf).symm
  unfold commit_eval
  by_cases h1 : v.fixed &&& (v.bits ^^^ v.eval) = 0
  · by_cases h2 : in_range v v.eval = true
    · rw [if_neg (by simp [h1]), if_pos h2]
      refine ⟨iff_of_true rfl ⟨hagree.mp h1, h2⟩, fun _ => rfl, fun h => by simp at h⟩
    · rw [if_neg (by simp [h1]), if_neg (by simp [h2])]
      refine ⟨?_, ?_, ?_⟩
      · simp [h2]
      · intro h; simp at h
      · intro _; rfl
  · rw [if_pos h1]
    refine ⟨?_, ?_, ?_⟩
    · constructor
      · intro h; simp at h
      · rintro ⟨ha, _⟩; exact absurd (hagree.mpr ha) h1
    · intro h; simp at h
    · intro _; rfl

/-- Claim C2: `in_range(x)` implements the three-way wrap-around interval
semantics: always true when `lo == hi`; `lo <= x < hi` when `lo < hi`;
`x < hi` or `lo <= x` when `lo > hi`. -/
theorem in_range_spec (v : Valuation) (x : Nat) (_hx : has_overflow v x = false) :
    (v.lo = v.hi → in_range v x = true) ∧
    (v.lo < v.hi → (in_range v x = true ↔ v.lo ≤ x ∧ x < v.hi)) ∧
    (v.hi < v.lo → (in_range v x = true ↔ v.lo ≤ x ∨ x < v.hi)) := by
  clear _hx
  unfold in_range
  refine ⟨fun h => by simp [h], fun h => ?_, fun h => ?_⟩
  · rw [if_neg (Nat.ne_of_lt h), if_pos h]
    simp
  · rw [if_neg (Nat.ne_of_gt h), if_neg (Nat.lt_asymm h)]
    simp

/-! Word-decomposition lemmas for the multi-word representation. -/

theorem word_eq_div (x i : Nat) : word x i = x / 2 ^ (32 * i) % 2 ^ 32 := by
  unfold word; rw [Nat.shiftRight_eq_div_pow]

theorem ofWords_congr (f g : Nat → Nat) (n : Nat) (h : ∀ i, i < n → f i = g i) :
    ofWords f n = ofWords g n := by
  induction n with
  | zero => rfl
  | succ n ih =>
    simp only [ofWords]
    rw [ih (fun i hi => h i (Nat.lt_succ_of_lt hi)), h n (Nat.lt_succ_self n)]

theorem ofWords_word (s : Nat) : ∀ n, ofWords (word s) n = s % 2 ^ (32 * n)
  | 0 => by simp [ofWords, Nat.mod_one]
  | n + 1 => by
    simp only [ofWords]
    rw [ofWords_word s n, Nat.mul_succ, Nat.pow_add, Nat.mod_mul]
    rw [word_eq_div, Nat.shiftLeft_eq]
    ring

theorem nwOf_bounds (bw : Nat) (hbw : 0 < bw) :
    32 * (nwOf bw - 1) < bw ∧ bw ≤ 32 * nwOf bw := by
  unfold nwOf; omega

theorem wmaskOf_eq (bw : Nat) (hbw : 0 < bw) :
    wmaskOf bw = 2 ^ (bw - 32 * (nwOf bw - 1)) - 1 := by
  unfold wmaskOf nwOf
  by_cases h0 : bw % 32 = 0
  · rw [if_pos h0]
    have h32 : bw - 32 * ((bw + 31) / 32 - 1) = 32 := by omega
    rw [h32]
  · rw [if_neg h0]
    have h32 : bw - 32 * ((bw + 31) / 32 - 1) = bw % 32 := by omega
    rw [h32]

theorem clear_overflow_bits_eq_mod (bw s : Nat) (hbw : 0 < bw) :
    clear_overflow_bits bw s = s % 2 ^ bw := by
  obtain ⟨m, hm⟩ : ∃ m, nwOf bw = m + 1 := ⟨nwOf bw - 1, by unfold nwOf; omega⟩
  have hk : 32 * m < bw ∧ bw ≤ 32 * m + 32 := by
    have := nwOf_bounds bw hbw; omega
  have hw : wmaskOf bw = 2 ^ (bw - 32 * m) - 1 := by
    rw [wmaskOf_eq bw hbw, hm]; simp
  unfold clear_overflow_bits
  rw [hm]
  simp only [ofWords]
  rw [ofWords_congr _ (word s) m (by intro i hi; rw [if_neg (by omega)]), ofWords_word]
  simp only [if_true, eq_self_iff_true]
  rw [hw, Nat.and_pow_two_sub_one_eq_mod]
  rw [word_eq_div, Nat.mod_mod_of_dvd _ (Nat.pow_dvd_pow 2 (by omega)), Nat.shiftLeft_eq]
  have hsplit : s % 2 ^ bw = s % 2 ^ (32 * m) + 2 ^ (32 * m) * (s / 2 ^ (32 * m) % 2 ^ (bw - 32 * m)) := by
    have h2 : (2:Nat) ^ bw = 2 ^ (32 * m) * 2 ^ (bw - 32 * m) := by
      rw [← Nat.pow_add]; congr 1; omega
    rw [h2, Nat.mod_mul]
  rw [hsplit]
  ring

theorem testBit_himask (r i : Nat) (hr : r ≤ 32) :
    (((2:Nat) ^ 32 - 1) ^^^ (2 ^ r - 1)).testBit i = decide (r ≤ i ∧ i < 32) := by
  rw [Nat.testBit_xor, Nat.testBit_two_pow_sub_one, Nat.testBit_two_pow_sub_one]
  by_cases h1 : i < r <;> by_cases h2 : i < 32 <;> simp [h1, h2] <;> omega

theorem land_himask_eq_zero_iff (w r : Nat) (hr : r ≤ 32) (hw : w < 2 ^ 32) :
    (w &&& (((2:Nat) ^ 32 - 1) ^^^ (2 ^ r - 1)) = 0) ↔ w < 2 ^ r := by
  constructor
  · intro h
    apply Nat.lt_pow_two_of_testBit
    intro i hi
    by_cases h32 : i < 32
    · have h0 : (w &&& (((2:Nat) ^ 32 - 1) ^^^ (2 ^ r - 1))).testBit i = false := by
        rw [h]; exact Nat.zero_testBit i
      rw [Nat.testBit_and, testBit_himask r i hr] at h0
      simpa [hi, h32] using h0
    · exact Nat.testBit_lt_two_pow (lt_of_lt_of_le hw (Nat.pow_le_pow_right (by norm_num) (by omega)))
  · intro h
    apply Nat.eq_of_testBit_eq
    intro i
    rw [Nat.testBit_and, testBit_himask r i hr, Nat.zero_testBit]
    by_cases hi : r ≤ i ∧ i < 32
    · have hwf : w.testBit i = false :=
        Nat.testBit_lt_two_pow (lt_of_lt_of_le h (Nat.pow_le_pow_right (by norm_num) hi.1))
      simp [hwf]
    · simp [hi]

theorem has_overflow_iff (v : Valuation) (x : Nat) (hbw : 0 < v.bw) (hx : x < 2 ^ twOf v.bw) :
    (has_overflow v x = true ↔ 2 ^ v.bw ≤ x) := by
  obtain ⟨m, hm⟩ : ∃ m, nwOf v.bw = m + 1 := ⟨nwOf v.bw - 1, by unfold nwOf; omega⟩
  have hk : 32 * m < v.bw ∧ v.bw ≤ 32 * m + 32 := by
    have := nwOf_bounds v.bw hbw; omega
  have htw : twOf v.bw = 32 * m + 32 := by unfold twOf; rw [hm]; ring
  have hxd : x / 2 ^ (32 * m) < 2 ^ 32 := by
    rw [Nat.div_lt_iff_lt_mul (Nat.pos_pow_of_pos _ (by norm_num)), ← Nat.pow_add]
    rw [htw] at hx; exact lt_of_lt_of_le hx (le_of_eq (by congr 1; ring))
  have hword : word x (nwOf v.bw - 1) = x / 2 ^ (32 * m) := by
    rw [hm]; simp only [Nat.add_sub_cancel]
    rw [word_eq_div, Nat.mod_eq_of_lt hxd]
  have hhim : himaskOf v.bw = ((2:Nat) ^ 32 - 1) ^^^ (2 ^ (v.bw - 32 * m) - 1) := by
    unfold himaskOf dMask
    rw [wmaskOf_eq v.bw hbw, hm]; simp
  unfold has_overflow
  rw [hword, hhim]
  rw [decide_eq_true_eq, Ne, land_himask_eq_zero_iff _ _ (by omega) hxd]
  rw [Nat.not_lt, Nat.le_div_iff_mul_le (Nat.pos_pow_of_pos _ (by norm_num))]
  rw [← Nat.pow_add]
  constructor <;> intro h <;> exact le_trans (le_of_eq (by congr 1; omega)) h

/-- Witness for C2 at a concrete state: `bw = 8`, range `[2, 10)`, `x = 5`. -/
theorem in_range_spec_witness :
    has_overflow { bw := 8, bits := 2, lo := 2, hi := 10, fixed := 0, eval := 0, spfx := 0 } 5 = false ∧
    in_range { bw := 8, bits := 2, lo := 2, hi := 10, fixed := 0, eval := 0, spfx := 0 } 5 = true :=
  ⟨by decide,
    ((in_range_spec { bw := 8, bits := 2, lo := 2, hi := 10, fixed := 0, eval := 0, spfx := 0 } 5
      (by decide)).2.1 (by decide)).mpr (by decide)⟩

theorem word_ne_zero_of_testBit (t j i : Nat) (hi : i < 32) (h : t.testBit (32 * j + i) = true) :
    word t j ≠ 0 := by
  intro h0
  have : (word t j).testBit i = true := by
    unfold word
    rw [Nat.testBit_mod_two_pow, Nat.testBit_shiftRight]
    simp [hi, h]
  rw [h0, Nat.zero_testBit] at this
  exact Bool.false_ne_true this

theorem anyHigh_iff (bw p : Nat) (hbw : 0 < bw) (hp : p < 2 ^ (twOf bw + twOf bw)) :
    ((List.range (nwOf bw)).any (fun j => decide (word p (nwOf bw + j) ≠ 0)) = true ↔
      2 ^ twOf bw ≤ p) := by
  have hnw : 0 < nwOf bw := by unfold nwOf; omega
  have htw : twOf bw = 32 * nwOf bw := rfl
  have hword : ∀ j, word p (nwOf bw + j) = word (p / 2 ^ twOf bw) j := by
    intro j
    rw [word_eq_div, word_eq_div, Nat.div_div_eq_div_mul, ← Nat.pow_add, htw]
    congr 2
    ring
  rw [List.any_eq_true]
  constructor
  · rintro ⟨j, _, hj⟩
    rw [decide_eq_true_eq, hword j] at hj
    by_contra hle
    rw [Nat.not_le] at hle
    have : p / 2 ^ twOf bw = 0 := Nat.div_eq_of_lt hle
    rw [this] at hj
    exact hj (by unfold word; simp)
  · intro hle
    set t := p / 2 ^ twOf bw with ht
    have htne : t ≠ 0 := by
      rw [ht]
      exact Nat.ne_of_gt (Nat.div_pos hle (Nat.pos_pow_of_pos _ (by norm_num)))
    have htlt : t < 2 ^ twOf bw := by
      rw [ht, Nat.div_lt_iff_lt_mul (Nat.pos_pow_of_pos _ (by norm_num)), ← Nat.pow_add]
      exact hp
    obtain ⟨i, hi⟩ := Nat.ne_zero_implies_bit_true htne
    have hilt : i < twOf bw := by
      by_contra hge
      rw [Nat.not_lt] at hge
      have hf : t.testBit i = false :=
        Nat.testBit_lt_two_pow (lt_of_lt_of_le htlt (Nat.pow_le_pow_right (by norm_num) hge))
      rw [hf] at hi
      exact absurd hi Bool.false_ne_true
    refine ⟨i / 32, List.mem_range.mpr ?_, ?_⟩
    · rw [htw] at hilt; omega
    · rw [decide_eq_true_eq, hword]
      refine word_ne_zero_of_testBit t (i / 32) (i % 32) (Nat.mod_lt i (by norm_num)) ?_
      have : 32 * (i / 32) + i % 32 = i := by omega
      rw [this, hi]

/-- Claim C8: for operands with no overflow bits, `set_add` stores the sum
modulo `2^bw` and flags exactly when the exact sum exceeds `2^bw - 1`, and
`set_mul` (with `check_overflow`) stores the product modulo `2^bw` and flags
exactly when the exact product exceeds `2^bw - 1`. -/
theorem set_add_mul_spec (v : Valuation) (a b : Nat) (hbw : 0 < v.bw)
    (ha : a < 2 ^ v.bw) (hb : b < 2 ^ v.bw) :
    ((set_add v a b).1 = true ↔ 2 ^ v.bw - 1 < a + b) ∧
    (set_add v a b).2 = (a + b) % 2 ^ v.bw ∧
    ((set_mul v a b true).1 = true ↔ 2 ^ v.bw - 1 < a * b) ∧
    (set_mul v a b true).2 = (a * b) % 2 ^ v.bw := by
  have hbwtw : v.bw ≤ twOf v.bw := by unfold twOf nwOf; omega
  have h1le : (1:Nat) ≤ 2 ^ v.bw := Nat.one_le_two_pow
  have hmono : (2:Nat) ^ v.bw ≤ 2 ^ twOf v.bw := Nat.pow_le_pow_right (by norm_num) hbwtw
  have etw : 32 * nwOf v.bw = twOf v.bw := rfl
  refine ⟨?_, ?_, ?_, ?_⟩
  · -- add flag
    show (decide (word (a + b) (nwOf v.bw) ≠ 0) || has_overflow v (a + b)) = true ↔ _
    have hs : a + b < 2 ^ (v.bw + 1) := by
      rw [Nat.pow_succ]; omega
    by_cases hcase : a + b < 2 ^ twOf v.bw
    · have hw0 : word (a + b) (nwOf v.bw) = 0 := by
        rw [word_eq_div, etw, Nat.div_eq_of_lt hcase]
        simp
      rw [hw0]
      have hd : decide ((0:Nat) ≠ 0) = false := by decide
      rw [hd, Bool.false_or, has_overflow_iff v _ hbw hcase]
      omega
    · rw [Nat.not_lt] at hcase
      have hw1 : word (a + b) (nwOf v.bw) ≠ 0 := by
        rw [word_eq_div, etw]
        have hlt : (a + b) / 2 ^ twOf v.bw < 2 ^ 32 := by
          rw [Nat.div_lt_iff_lt_mul (Nat.pos_pow_of_pos _ (by norm_num)), ← Nat.pow_add]
          exact lt_of_lt_of_le hs (Nat.pow_le_pow_right (by norm_num) (by omega))
        rw [Nat.mod_eq_of_lt hlt]
        exact Nat.ne_of_gt (Nat.div_pos hcase (Nat.pos_pow_of_pos _ (by norm_num)))
      simp only [hw1, ne_eq, not_false_eq_true, decide_True, Bool.true_or, true_iff]
      omega
  · show clear_overflow_bits v.bw (a + b) = _
    exact clear_overflow_bits_eq_mod v.bw (a + b) hbw
  · -- mul flag
    have hp : a * b < 2 ^ (twOf v.bw + twOf v.bw) := by
      have h1 : a * b < 2 ^ v.bw * 2 ^ v.bw :=
        mul_lt_mul'' ha hb (Nat.zero_le a) (Nat.zero_le b)
      have h2 : (2:Nat) ^ v.bw * 2 ^ v.bw ≤ 2 ^ (twOf v.bw + twOf v.bw) := by
        rw [Nat.pow_add]; exact Nat.mul_le_mul hmono hmono
      exact lt_of_lt_of_le h1 h2
    show (true && (has_overflow v (a * b) ||
      (List.range (nwOf v.bw)).any (fun j => decide (word (a * b) (nwOf v.bw + j) ≠ 0)))) = true ↔ _
    rw [Bool.true_and, Bool.or_eq_true, anyHigh_iff v.bw (a * b) hbw hp]
    by_cases hcase : a * b < 2 ^ twOf v.bw
    · rw [has_overflow_iff v _ hbw hcase]
      constructor
      · rintro (h | h) <;> omega
      · intro h; left; omega
    · rw [Nat.not_lt] at hcase
      constructor
      · intro _; omega
      · intro _; right; exact hcase
  · show clear_overflow_bits v.bw (a * b) = _
    exact clear_overflow_bits_eq_mod v.bw (a * b) hbw

/-- Witness for C8: `bw = 8`, `a = 200`, `b = 100`. -/
theorem set_add_mul_spec_witness :
    (set_add { bw := 8, bits := 0, lo := 0, hi := 0, fixed := 0, eval := 0, spfx := 0 } 200 100).1 = true ∧
    (set_add { bw := 8, bits := 0, lo := 0, hi := 0, fixed := 0, eval := 0, spfx := 0 } 200 100).2 = 44 ∧
    (set_mul { bw := 8, bits := 0, lo := 0, hi := 0, fixed := 0, eval := 0, spfx := 0 } 200 100 true).1 = true ∧
    (set_mul { bw := 8, bits := 0, lo := 0, hi := 0, fixed := 0, eval := 0, spfx := 0 } 200 100 true).2 = 32 := by
  have h := set_add_mul_spec { bw := 8, bits := 0, lo := 0, hi := 0, fixed := 0, eval := 0, spfx := 0 }
    200 100 (by decide) (by decide) (by decide)
  refine ⟨h.1.mpr (by decide), ?_, h.2.2.1.mpr (by decide), ?_⟩
  · rw [h.2.1]; decide
  · rw [h.2.2.2]; decide

theorem commit_eval_true_land (v : Valuation) (h : (commit_eval v).1 = true) :
    v.fixed &&& (v.bits ^^^ v.eval) = 0 := by
  unfold commit_eval at h
  by_cases h1 : v.fixed &&& (v.bits ^^^ v.eval) ≠ 0
  · rw [if_pos h1] at h; simp at h
  · exact of_not_not h1

theorem commit_eval_true_bits (v : Valuation) (h : (commit_eval v).1 = true) :
    (commit_eval v).2.bits = v.eval := by
  unfold commit_eval at h ⊢
  by_cases h1 : v.fixed &&& (v.bits ^^^ v.eval) ≠ 0
  · rw [if_pos h1] at h; simp at h
  · rw [if_neg h1] at h ⊢
    by_cases h2 : in_range v v.eval = true
    · rw [if_pos h2]
    · rw [if_neg h2] at h; simp at h

theorem testBit_fixed_himask (bw i : Nat) (hbw : 0 < bw) (h1 : bw ≤ i) (h2 : i < twOf bw) :
    (himaskOf bw <<< (32 * (nwOf bw - 1))).testBit i = true := by
  obtain ⟨m, hm⟩ : ∃ m, nwOf bw = m + 1 := ⟨nwOf bw - 1, by unfold nwOf; omega⟩
  have hk : 32 * m < bw ∧ bw ≤ 32 * m + 32 := by
    have := nwOf_bounds bw hbw; omega
  have htw : twOf bw = 32 * m + 32 := by unfold twOf; rw [hm]; ring
  have hhim : himaskOf bw = ((2:Nat) ^ 32 - 1) ^^^ (2 ^ (bw - 32 * m) - 1) := by
    unfold himaskOf dMask
    rw [wmaskOf_eq bw hbw, hm]; simp
  rw [hm]
  simp only [Nat.add_sub_cancel]
  rw [Nat.testBit_shiftLeft, hhim, testBit_himask _ _ (by omega)]
  rw [htw] at h2
  simp only [Bool.and_eq_true, decide_eq_true_eq]
  omega

/-- Claim C10: the constructor pins every overflow-bit position (the bits at
indices `bw .. 32*nw - 1` of `fixed` are set) while `bits` is zero there;
consequently, for any state with that property, every `x` accepted by
`can_set` has no overflow bits, and every successful `commit_eval` leaves a
committed value with no overflow bits, without any separate masking step. -/
theorem ctor_overflow_guard (bw : Nat) (hbw : 0 < bw) :
    (∀ i, bw ≤ i → i < twOf bw → (fresh bw).fixed.testBit i = true) ∧
    (∀ i, (fresh bw).bits.testBit i = false) ∧
    (∀ (v : Valuation) (x : Nat), 0 < v.bw →
      (∀ i, v.bw ≤ i → i < twOf v.bw → v.fixed.testBit i = true) →
      (∀ i, v.bw ≤ i → v.bits.testBit i = false) →
      x < 2 ^ twOf v.bw → can_set v x = true → has_overflow v x = false) ∧
    (∀ (v : Valuation), 0 < v.bw →
      (∀ i, v.bw ≤ i → i < twOf v.bw → v.fixed.testBit i = true) →
      (∀ i, v.bw ≤ i → v.bits.testBit i = false) →
      v.eval < 2 ^ twOf v.bw → (commit_eval v).1 = true →
      has_overflow v ((commit_eval v).2.bits) = false) := by
  have key : ∀ (v : Valuation) (x : Nat), 0 < v.bw →
      (∀ i, v.bw ≤ i → i < twOf v.bw → v.fixed.testBit i = true) →
      (∀ i, v.bw ≤ i → v.bits.testBit i = false) →
      x < 2 ^ twOf v.bw → v.fixed &&& (x ^^^ v.bits) = 0 → has_overflow v x = false := by
    intro v x hbw0 hfix hbits hx hland
    have hxlt : x < 2 ^ v.bw := by
      apply Nat.lt_pow_two_of_testBit
      intro i hge
      by_cases htw : i < twOf v.bw
      · have hagree := (land_xor_eq_zero_iff _ _ _).mp hland i (hfix i hge htw)
        rw [hagree]
        exact hbits i hge
      · exact Nat.testBit_lt_two_pow
          (lt_of_lt_of_le hx (Nat.pow_le_pow_right (by norm_num) (Nat.not_lt.mp htw)))
    cases hov : has_overflow v x with
    | false => rfl
    | true =>
      have := (has_overflow_iff v x hbw0 hx).mp hov
      omega
  refine ⟨?_, ?_, ?_, ?_⟩
  · intro i h1 h2
    exact testBit_fixed_himask bw i hbw h1 h2
  · intro i
    exact Nat.zero_testBit i
  · intro v x hbw0 hfix hbits hx hcan
    unfold can_set at hcan
    rw [Bool.and_eq_true, decide_eq_true_eq] at hcan
    apply key v x hbw0 hfix hbits hx
    rw [Nat.and_comm] at hcan
    exact hcan.1
  · intro v hbw0 hfix hbits hx hcommit
    rw [commit_eval_true_bits v hcommit]
    apply key v v.eval hbw0 hfix hbits hx
    have hland := commit_eval_true_land v hcommit
    rw [land_xor_eq_zero_iff] at hland ⊢
    intro i hf
    exact (hland i hf).symm

/-- Witness for C10: `bw = 8`, the constructor state itself, `x = 5`. -/
theorem ctor_overflow_guard_witness : has_overflow (fresh 8) 5 = false := by
  have h := ctor_overflow_guard 8 (by decide)
  apply h.2.2.1 (fresh 8) 5 (by decide) h.1
  · intro i _
    exact h.2.1 i
  · decide
  · decide

theorem anyBitFrom_iff (d i bw : Nat) (hd : d < 2 ^ bw) :
    (anyBitFrom d i bw = true ↔ 2 ^ i ≤ d) := by
  unfold anyBitFrom
  rw [List.any_eq_true]
  constructor
  · rintro ⟨k, _, hk⟩
    exact le_trans (Nat.pow_le_pow_right (by norm_num) (Nat.le_add_right i k))
      (Nat.testBit_implies_ge hk)
  · intro hle
    obtain ⟨j, hj1, hj2⟩ := Nat.ge_two_pow_implies_high_bit_true hle
    have hjbw : j < bw := by
      by_contra hge
      rw [Nat.not_lt] at hge
      have hf : d.testBit j = false :=
        Nat.testBit_lt_two_pow (lt_of_lt_of_le hd (Nat.pow_le_pow_right (by norm_num) hge))
      rw [hf] at hj2
      exact absurd hj2 Bool.false_ne_true
    refine ⟨j - i, List.mem_range.mpr (by omega), ?_⟩
    have he : i + (j - i) = j := by omega
    rw [he]
    exact hj2

theorem to_nat_go_spec (d bw maxn K : Nat)
    (hK1 : maxn ≤ 2 ^ K) (hK2 : ∀ j, j < K → 2 ^ j < maxn)
    (hd : d < 2 ^ bw) (hmax : maxn < 2 ^ 31) :
    ∀ rem i, i + rem = bw → i ≤ K →
      to_nat_go d bw maxn rem i (2 ^ i) (d % 2 ^ i) = if d < 2 ^ K then d else maxn := by
  have hK31 : K ≤ 31 := by
    by_contra hgt
    rw [Nat.not_le] at hgt
    have := hK2 31 (by omega)
    omega
  intro rem
  induction rem with
  | zero =>
    intro i hi hiK
    simp only [to_nat_go]
    have hieq : i = bw := by omega
    rw [hieq, Nat.mod_eq_of_lt hd]
    have hlt : d < 2 ^ K := lt_of_lt_of_le hd
      (by rw [← hieq]; exact Nat.pow_le_pow_right (by norm_num) hiK)
    rw [if_pos hlt]
  | succ rem ih =>
    intro i hi hiK
    simp only [to_nat_go]
    by_cases hge : 2 ^ i ≥ maxn
    · rw [if_pos hge]
      have hKi : K = i := by
        by_contra hne
        have hiltK : i < K := by omega
        have := hK2 i hiltK
        omega
      rw [← hKi]
      by_cases hdlt : d < 2 ^ K
      · have hany : anyBitFrom d K bw = false := by
          cases hany : anyBitFrom d K bw with
          | false => rfl
          | true =>
            have := (anyBitFrom_iff d K bw hd).mp hany
            omega
        rw [hany, if_neg (by simp), if_pos hdlt, Nat.mod_eq_of_lt hdlt]
      · have hany : anyBitFrom d K bw = true :=
          (anyBitFrom_iff d K bw hd).mpr (by omega)
        rw [hany, if_pos rfl, if_neg hdlt]
    · rw [if_neg hge]
      rw [Nat.not_le] at hge
      have hiK2 : i < K := by
        by_contra hc
        rw [Nat.not_lt] at hc
        have := Nat.pow_le_pow_right (show 1 ≤ 2 by norm_num) hc
        omega
    -- the shifted power and the updated accumulator stay exact
      have hp : ((2 ^ i) <<< 1) % 2 ^ 32 = 2 ^ (i + 1) := by
        rw [Nat.shiftLeft_eq]
        have he : (2:Nat) ^ i * 2 ^ 1 = 2 ^ (i + 1) := by rw [← Nat.pow_add]
        rw [he]
        exact Nat.mod_eq_of_lt (Nat.pow_lt_pow_right (by norm_num) (by omega))
      have hsplit : d % 2 ^ (i + 1) = d % 2 ^ i + 2 ^ i * (d / 2 ^ i % 2) := by
        have h2 : (2:Nat) ^ (i + 1) = 2 ^ i * 2 := by rw [Nat.pow_succ]
        rw [h2, Nat.mod_mul]
      have hvalue : (if d.testBit i then (d % 2 ^ i + 2 ^ i) % 2 ^ 32 else d % 2 ^ i)
          = d % 2 ^ (i + 1) := by
        rw [Nat.testBit_to_div_mod]
        by_cases hbit : d / 2 ^ i % 2 = 1
        · rw [if_pos (by simp [hbit]), hsplit, hbit, Nat.mul_one]
          apply Nat.mod_eq_of_lt
          have hmod : d % 2 ^ i < 2 ^ i := Nat.mod_lt d (Nat.pos_pow_of_pos _ (by norm_num))
          have hle32 : (2:Nat) ^ (i + 1) ≤ 2 ^ 32 := Nat.pow_le_pow_right (by norm_num) (by omega)
          have h2 : (2:Nat) ^ (i + 1) = 2 ^ i * 2 := by rw [Nat.pow_succ]
          omega
        · have hbit0 : d / 2 ^ i % 2 = 0 := by omega
          rw [if_neg (by simp [hbit]), hsplit, hbit0, Nat.mul_zero, Nat.add_zero]
      rw [hvalue, hp]
      exact ih (i + 1) (by omega) (by omega)

/-- Claim C9 (amended): `to_nat(max_n)` returns the committed value when it is
below `2^K`, the least power of two at or above `max_n`, and `max_n`
otherwise; the saturation threshold is that power of two, not `max_n`
itself. -/
theorem to_nat_amended (v : Valuation) (maxn K : Nat)
    (hK1 : maxn ≤ 2 ^ K) (hK2 : ∀ j, j < K → 2 ^ j < maxn)
    (hbits : v.bits < 2 ^ v.bw) (hmax : maxn < 2 ^ 31) :
    to_nat v maxn = if v.bits < 2 ^ K then v.bits else maxn := by
  unfold to_nat
  have h := to_nat_go_spec v.bits v.bw maxn K hK1 hK2 hbits hmax v.bw 0 (by omega) (by omega)
  rw [Nat.pow_zero, Nat.mod_one] at h
  exact h

/-- Counterexample for C9 as stated: `bw = 8`, committed value 6 (set through
`commit_eval` on a fresh valuation), `max_n = 5`; `to_nat` returns 6, which
exceeds `max_n`. -/
theorem to_nat_counterexample :
    to_nat ((commit_eval { fresh 8 with eval := 6 }).2) 5 = 6 ∧ 5 < 6 := by
  constructor
  · decide
  · decide

/-- Witness for the amended C9: same state, `max_n = 8 = 2^3`; the result is
the committed value 6. -/
theorem to_nat_amended_witness :
    to_nat ((commit_eval { fresh 8 with eval := 6 }).2) 8 = 6 := by
  have h := to_nat_amended ((commit_eval { fresh 8 with eval := 6 }).2) 8 3
    (by decide) (by intro j hj; interval_cases j <;> decide) (by decide) (by decide)
  rw [h]
  decide

/-! Failure paths leave the valuation untouched. -/

theorem try_set_false (v : Valuation) (x : Nat) (h : (try_set v x).1 = false) :
    (try_set v x).2 = v := by
  unfold try_set at h ⊢
  by_cases hc : can_set v x = true
  · rw [if_pos hc] at h; simp at h
  · rw [if_neg hc]

theorem try_set_p_false (v : Valuation) (tmp k : Nat) (h : (try_set_p v tmp k).1 = false) :
    (try_set_p v tmp k).2.1 = v :=
  try_set_false v tmp h

theorem commit_eval_false_state (v : Valuation) (h : (commit_eval v).1 = false) :
    (commit_eval v).2 = v := by
  unfold commit_eval at h ⊢
  by_cases h1 : v.fixed &&& (v.bits ^^^ v.eval) ≠ 0
  · rw [if_pos h1]
  · rw [if_neg h1] at h ⊢
    by_cases h2 : in_range v v.eval = true
    · rw [if_pos h2] at h; simp at h
    · rw [if_neg h2]

theorem try_set_bit_false (v : Valuation) (i : Nat) (b : Bool)
    (hin : in_range v v.bits = true) (h : (try_set_bit v i b).1 = false) :
    (try_set_bit v i b).2 = v := by
  unfold try_set_bit at h ⊢
  by_cases h1 : v.fixed.testBit i ∧ v.bits.testBit i ≠ b
  · rw [if_pos h1]
  · rw [if_neg h1] at h ⊢
    have he : in_range { v with eval := setBitTo v.eval i b }
        ({ v with eval := setBitTo v.eval i b }).bits = in_range v v.bits := rfl
    simp only [he, hin, if_true] at h
    exact absurd h (by decide)

theorem try_set_range_false (v : Valuation) (dst l h : Nat) (b : Bool)
    (hf : (try_set_range v dst l h b).1 = false) :
    (try_set_range v dst l h b).2 = dst := by
  unfold try_set_range at hf ⊢
  by_cases h1 : ((List.range (h - l)).any
      (fun j => v.fixed.testBit (l + j) && (v.bits.testBit (l + j) != b))) = true
  · rw [if_pos h1]
  · rw [if_neg h1] at hf; simp at hf

theorem set_repair_false (v : Valuation) (td : Bool) (dst0 : Nat)
    (h : (set_repair v td dst0).1 = false) : (set_repair v td dst0).2.1 = v := by
  simp only [set_repair] at h ⊢
  split_ifs at h ⊢ <;> rfl

theorem set_random_at_most_false (v : Valuation) (src : Nat) (rng : Nat → Nat) (k : Nat)
    (h : (set_random_at_most v src rng k).1 = false) :
    (set_random_at_most v src rng k).2.1 = v := by
  simp only [set_random_at_most] at h ⊢
  split_ifs at h ⊢ <;> first
    | rfl
    | exact try_set_p_false v _ _ h

theorem set_random_at_least_false (v : Valuation) (src : Nat) (rng : Nat → Nat) (k : Nat)
    (h : (set_random_at_least v src rng k).1 = false) :
    (set_random_at_least v src rng k).2.1 = v := by
  simp only [set_random_at_least] at h ⊢
  split_ifs at h ⊢ <;> first
    | rfl
    | exact try_set_p_false v _ _ h

theorem set_random_in_range_false (v : Valuation) (slo shi : Nat) (rng : Nat → Nat) (k : Nat)
    (h : (set_random_in_range v slo shi rng k).1 = false) :
    (set_random_in_range v slo shi rng k).2.1 = v := by
  simp only [set_random_in_range] at h ⊢
  split_ifs at h ⊢ <;> first
    | rfl
    | exact try_set_p_false v _ _ h

/-- Claim C7: every fallible mutator that returns false leaves the valuation
(and in particular `eval` and `bits`) exactly as before the call, and
`try_set_range` leaves its target buffer untouched; for `try_set_bit` this
holds under its asserted precondition `in_range(m_bits)`. -/
theorem fail_no_mutation (v : Valuation) (i : Nat) (b : Bool) (x dst l h src slo shi : Nat)
    (td : Bool) (rng : Nat → Nat) (k : Nat) :
    (in_range v v.bits = true → (try_set_bit v i b).1 = false → (try_set_bit v i b).2 = v) ∧
    ((try_set v x).1 = false → (try_set v x).2 = v) ∧
    ((try_set_range v dst l h b).1 = false → (try_set_range v dst l h b).2 = dst) ∧
    ((commit_eval v).1 = false → (commit_eval v).2 = v) ∧
    ((set_repair v td dst).1 = false → (set_repair v td dst).2.1 = v) ∧
    ((set_random_at_most v src rng k).1 = false → (set_random_at_most v src rng k).2.1 = v) ∧
    ((set_random_at_least v src rng k).1 = false → (set_random_at_least v src rng k).2.1 = v) ∧
    ((set_random_in_range v slo shi rng k).1 = false → (set_random_in_range v slo shi rng k).2.1 = v) :=
  ⟨fun hin hf => try_set_bit_false v i b hin hf,
    fun hf => try_set_false v x hf,
    fun hf => try_set_range_false v dst l h b hf,
    fun hf => commit_eval_false_state v hf,
    fun hf => set_repair_false v td dst hf,
    fun hf => set_random_at_most_false v src rng k hf,
    fun hf => set_random_at_least_false v src rng k hf,
    fun hf => set_random_in_range_false v slo shi rng k hf⟩

/-- Witness for C7: `bw = 8`, bit 0 fixed at 0; `try_set_bit(0, true)` fails
and leaves the state unchanged. -/
theorem fail_no_mutation_witness :
    (try_set_bit { bw := 8, bits := 0, lo := 0, hi := 0, fixed := 4294967041, eval := 0, spfx := 0 }
      0 true).2 = { bw := 8, bits := 0, lo := 0, hi := 0, fixed := 4294967041, eval := 0, spfx := 0 } := by
  have hc := fail_no_mutation
    { bw := 8, bits := 0, lo := 0, hi := 0, fixed := 4294967041, eval := 0, spfx := 0 }
    0 true 0 0 0 0 0 0 0 true (fun _ => 0) 0
  exact hc.1 (by decide) (by decide)

/-! Concrete scenarios settling claims C3 to C6.  Each state is reached
through the public interface: `commit_eval` installs the committed value,
`fixed` is extended by a direct mask edit, ranges arrive via `add_range`. -/

/-- Claim C3 (code bug): `bw = 8`, bit 1 fixed at 1 (`bits = 2`), range
unconstrained.  `get_at_most(4, dst)` returns true with `dst = 4`, but
`can_set(4)` is false (bit 1 of 4 is 0), even though the feasible value
`3 <= 4` exists; the initialisation `dst = src & (~fixed | bits)` fails to
force fixed bits whose pinned value is 1, contradicting the function's own
contract of returning a feasible value. -/
theorem get_at_most_infeasible_bug :
    ({ (commit_eval { fresh 8 with eval := 2 }).2 with
        fixed := (commit_eval { fresh 8 with eval := 2 }).2.fixed ||| 2 }
      = { bw := 8, bits := 2, lo := 0, hi := 0, fixed := 4294967042, eval := 2, spfx := 0 }) ∧
    get_at_most { bw := 8, bits := 2, lo := 0, hi := 0, fixed := 4294967042, eval := 2, spfx := 0 } 4
      = (true, 4) ∧
    can_set { bw := 8, bits := 2, lo := 0, hi := 0, fixed := 4294967042, eval := 2, spfx := 0 } 4
      = false ∧
    can_set { bw := 8, bits := 2, lo := 0, hi := 0, fixed := 4294967042, eval := 2, spfx := 0 } 3
      = true := by
  refine ⟨by decide, by decide, by decide, by decide⟩

/-- Claim C4: `bw = 8`, bit 0 fixed at 1 (`bits = 1`), then the wrap-around
range `[10, 5)` is installed via `add_range` (whose `tighten_range` stores
`lo = 11`, the least fixed-compatible value at or above 10, preserving the
feasible set); `get_at_least(7, dst)` returns true with `dst = 11`. -/
theorem get_at_least_wrap_scenario :
    ({ (commit_eval { fresh 8 with eval := 1 }).2 with
        fixed := (commit_eval { fresh 8 with eval := 1 }).2.fixed ||| 1 }
      = { bw := 8, bits := 1, lo := 0, hi := 0, fixed := 4294967041, eval := 1, spfx := 0 }) ∧
    (add_range { bw := 8, bits := 1, lo := 0, hi := 0, fixed := 4294967041, eval := 1, spfx := 0 }
      10 5).lo = 11 ∧
    (add_range { bw := 8, bits := 1, lo := 0, hi := 0, fixed := 4294967041, eval := 1, spfx := 0 }
      10 5).hi = 5 ∧
    get_at_least
      (add_range { bw := 8, bits := 1, lo := 0, hi := 0, fixed := 4294967041, eval := 1, spfx := 0 }
        10 5) 7 = (true, 11) := by
  refine ⟨by decide, by decide, by decide, by decide⟩

/-- Claim C5 (code bug): on the non-wrapped range `[2, 10)` (installed on a
fresh `bw = 8` valuation), `add_range(3, 7)` narrows `lo` to 3 but leaves
`hi = 10`: the guard at sls_valuation.cpp:515 reads
`old_hi < h && h < old_hi`, which is unsatisfiable, so `hi` is never
narrowed in the non-wrapped case. -/
theorem add_range_hi_not_narrowed :
    (add_range (fresh 8) 2 10).lo = 2 ∧
    (add_range (fresh 8) 2 10).hi = 10 ∧
    (add_range (add_range (fresh 8) 2 10) 3 7).lo = 3 ∧
    (add_range (add_range (fresh 8) 2 10) 3 7).hi = 10 := by
  refine ⟨by decide, by decide, by decide, by decide⟩

/-- Claim C6 (code bug): `bw = 4`, bit 0 fixed at 1 (`bits = 1`), starting
well-formed and unconstrained; `add_range(8, 1)` leaves the state with
`lo = 9`, `hi = 1`, `bits = 3`, where `in_range(bits)` is false, so
`well_formed()` fails even though `add_range` and `tighten_range` both
assert it. -/
theorem add_range_breaks_well_formed :
    ({ (commit_eval { fresh 4 with eval := 1 }).2 with
        fixed := (commit_eval { fresh 4 with eval := 1 }).2.fixed ||| 1 }
      = { bw := 4, bits := 1, lo := 0, hi := 0, fixed := 4294967281, eval := 1, spfx := 0 }) ∧
    well_formed { bw := 4, bits := 1, lo := 0, hi := 0, fixed := 4294967281, eval := 1, spfx := 0 }
      = true ∧
    (add_range { bw := 4, bits := 1, lo := 0, hi := 0, fixed := 4294967281, eval := 1, spfx := 0 }
      8 1).lo = 9 ∧
    (add_range { bw := 4, bits := 1, lo := 0, hi := 0, fixed := 4294967281, eval := 1, spfx := 0 }
      8 1).hi = 1 ∧
    (add_range { bw := 4, bits := 1, lo := 0, hi := 0, fixed := 4294967281, eval := 1, spfx := 0 }
      8 1).bits = 3 ∧
    well_formed
      (add_range { bw := 4, bits := 1, lo := 0, hi := 0, fixed := 4294967281, eval := 1, spfx := 0 }
        8 1) = false := by
  refine ⟨by decide, by decide, by decide, by decide, by decide, by decide⟩

end bv
